import Mathlib

/-!
Verification development for `git-loc.py`, a utility that walks a git
repository tree and aggregates file/line/blank/byte counts grouped by
extension, MIME type, or language, rendering the result as a table, CSV,
JSON, or YAML report.

The Python program is shallowly embedded: Python dicts become
insertion-ordered association lists (Python 3.7+ dicts preserve insertion
order), `defaultdict(int)` reads become explicit default-0 reads with
insert-on-miss where the source performs a subscript access, blob contents
become strings split into lines the way `readlines()` splits byte streams,
and the traversal becomes a fold over the list of visited blobs.
-/

set_option maxRecDepth 10000

/-- First-match lookup in an association list, mirroring Python dict access
(Python dict keys are unique, so first match is the only match). -/
def lookupE {α : Type} (k : String) : List (String × α) → Option α
  | [] => none
  | e :: es => if e.1 = k then some e.2 else lookupE k es

/-- A counter for one group: metric name to integer count, insertion
ordered, mirroring one `defaultdict(int)` value of `totals`. -/
abbrev Counter := List (String × Int)

/-- The counter table `totals`: group key to counter, insertion ordered. -/
abbrev Totals := List (String × Counter)

/-- Read a metric with default 0, the value a `defaultdict(int)` lookup
observes. -/
def getE (es : Counter) (k : String) : Int :=
  (lookupE k es).getD 0

/-- `counts[k] += n` on a `defaultdict(int)`: update the entry in place,
or append a fresh entry holding `n` when the key is absent. -/
def incrE : Counter → String → Int → Counter
  | [], k, n => [(k, n)]
  | e :: es, k, n => if e.1 = k then (e.1, e.2 + n) :: es else e :: incrE es k n

/-- `defaultdict(int).__getitem__`: return the stored value, inserting an
explicit 0 entry when the key is absent (the mutation `counts[col]`
performs during formatting). -/
def dgetE (es : Counter) (k : String) : Int × Counter :=
  match lookupE k es with
  | some v => (v, es)
  | none => (0, es ++ [(k, 0)])

/-- `totals.setdefault(g, defaultdict(int))`. -/
def setdefaultT (t : Totals) (g : String) : Totals :=
  match lookupE g t with
  | some _ => t
  | none => t ++ [(g, [])]

/-- `totals[g][k] += n`: increment metric `k` of group `g` in place; a
no-op when the group is absent (the source always calls `setdefault`
first, and the `total` group exists from initialization). -/
def incrT : Totals → String → String → Int → Totals
  | [], _, _, _ => []
  | e :: es, g, k, n =>
    if e.1 = g then (e.1, incrE e.2 k n) :: es else e :: incrT es g k n

/-- Read metric `k` of group `g` with default 0. -/
def getT (t : Totals) (g k : String) : Int :=
  getE ((lookupE g t).getD []) k

/-- The group keys of the counter table, in insertion order. -/
def keysT (t : Totals) : List String :=
  t.map (fun e => e.1)

/-- Sum of metric `m` across every group other than the reserved key
`total`. -/
def nonTotalSum (t : Totals) (m : String) : Int :=
  ((t.filter (fun e => e.1 ≠ "total")).map (fun e => getE e.2 m)).sum

/-- The whitespace bytes recognized by Python `bytes.isspace`. -/
def pyIsWs (c : Char) : Bool :=
  c = ' ' || c = '\t' || c = '\n' || c = '\r' || c = '\x0b' || c = '\x0c'

/-- Python `bytes.isspace` on one line: true iff the line is nonempty and
every byte is whitespace (the empty byte string is NOT spacey). -/
def pyIsspaceL (l : List Char) : Bool :=
  !l.isEmpty && l.all pyIsWs

/-- Worker for `readlines`: split after each newline byte, keeping the
terminator, dropping a trailing empty segment. -/
def pySplitLinesAux : List Char → List Char → List (List Char)
  | [], acc => if acc.isEmpty then [] else [acc.reverse]
  | c :: cs, acc =>
    if c = '\n' then (c :: acc).reverse :: pySplitLinesAux cs []
    else pySplitLinesAux cs (c :: acc)

/-- Python `stream.readlines()` on a blob's raw data: lines split on the
newline byte, terminators kept. -/
def pyReadlines (s : String) : List (List Char) :=
  pySplitLinesAux s.data []

/-- The metric key one line increments: `'blanks' if line.isspace() else
'lines'`. -/
def lineKey (l : List Char) : String :=
  if pyIsspaceL l then "blanks" else "lines"

/-- Split a path on `/` separators. -/
def splitSlash : List Char → List Char → List (List Char)
  | [], acc => [acc.reverse]
  | c :: cs, acc =>
    if c = '/' then acc.reverse :: splitSlash cs []
    else splitSlash cs (c :: acc)

/-- `pathlib.Path(path).name`: the last path component, with empty and `.`
components dropped during parsing. -/
def pyName (s : String) : String :=
  String.mk (((splitSlash s.data []).filter
    (fun p => !p.isEmpty && p != ['.'])).getLastD [])

/-- `pathlib.Path(path).suffix` over the characters of the filename: the
segment from the last dot onward, provided that dot is neither the first
nor the last character of the name; empty otherwise. -/
def pySuffixL (name : List Char) : List Char :=
  let r := name.reverse
  let after := r.takeWhile (fun c => c != '.')
  match r.dropWhile (fun c => c != '.') with
  | [] => []
  | _ :: bfr => if after.isEmpty || bfr.isEmpty then [] else '.' :: after.reverse

/-- The three `--groupby` choices. -/
inductive GroupBy
  | extension
  | mimeType
  | language
deriving DecidableEq

/-- One entry of the bundled `languages.yml` table: explicit filenames and
extensions (extensions listed with their leading dot, as `path.suffix`
values). -/
structure LangInfo where
  filenames : List String
  extensions : List String
deriving DecidableEq

/-- The memoization cache `_lang_cache`: filename to language name. -/
abbrev Cache := List (String × String)

/-- The run configuration the classifier consults: the `groupby` mode, the
static language table (ordered, first match wins), and the stdlib
`mimetypes.guess_type` heuristic modelled as an oracle returning the
guessed type when one exists. -/
structure Ctx where
  groupby : GroupBy
  langs : List (String × LangInfo)
  guess : String → Option String

/-- `getlang`: consult the cache keyed on the filename; on a miss scan the
language table in order for a filename or extension match, caching and
returning the first hit; return `'other'` UNCACHED when no language
matches (the source returns from inside the loop, so only hits are
cached). -/
def getlang (langs : List (String × LangInfo)) (cache : Cache)
    (name sfx : String) : String × Cache :=
  match lookupE name cache with
  | some l => (l, cache)
  | none =>
    match langs.find? (fun li => li.2.filenames.contains name
        || li.2.extensions.contains sfx) with
    | some li => (li.1, cache ++ [(name, li.1)])
    | none => ("other", cache)

/-- `group(path)`: dispatch on the groupby mode. Extension mode returns
`path.suffix[1:]` when the suffix is nonempty, else `'other'`; MIME mode
returns the guessed type or gitpython's `Blob.DEFAULT_MIME_TYPE`
(`text/plain`); language mode delegates to `getlang`, threading the
cache. -/
def group (ctx : Ctx) (cache : Cache) (path : String) : String × Cache :=
  match ctx.groupby with
  | .extension =>
    (match pySuffixL (pyName path).data with
     | [] => ("other", cache)
     | _ :: rest => (String.mk rest, cache))
  | .mimeType => ((ctx.guess path).getD "text/plain", cache)
  | .language => getlang ctx.langs cache (pyName path) (String.mk (pySuffixL (pyName path).data))

/-- One visited blob of the tree traversal: its path inside the tree, its
byte size as reported by git, and its raw content. -/
structure Blob where
  path : String
  size : Nat
  content : String

/-- The per-line accumulation: `totals[ext][k] += 1; totals['total'][k] += 1`
with `k` chosen by `lineKey`. -/
def treeLine (ext : String) (t : Totals) (l : List Char) : Totals :=
  incrT (incrT t ext (lineKey l) 1) "total" (lineKey l) 1

/-- The body of the `tree` loop for one blob: classify the path, ensure the
group row exists, bump `files` and `bytes` for the group and for `total`,
then fold every line of the blob's data through `treeLine`. -/
def treeStep (ctx : Ctx) (st : Totals × Cache) (b : Blob) : Totals × Cache :=
  let ext := (group ctx st.2 b.path).1
  let c := (group ctx st.2 b.path).2
  let t0 := setdefaultT st.1 ext
  let t1 := incrT t0 ext "files" 1
  let t2 := incrT t1 "total" "files" 1
  let t3 := incrT t2 ext "bytes" (b.size : Int)
  let t4 := incrT t3 "total" "bytes" (b.size : Int)
  let t5 := (pyReadlines b.content).foldl (treeLine ext) t4
  (t5, c)

/-- The module-level initial state: `totals = {'total': defaultdict(int)}`. -/
def initTotals : Totals := [("total", [])]

/-- `tree(repo)`: fold every unique blob of the traversal through
`treeStep`, starting from the initial table and an empty language cache. -/
def tree (ctx : Ctx) (blobs : List Blob) : Totals × Cache :=
  blobs.foldl (treeStep ctx) (initTotals, [])

/-- The sequence of group keys the run classifies, with the cache threaded
exactly as `treeStep` threads it. -/
def runExts (ctx : Ctx) (cache : Cache) : List Blob → List String
  | [] => []
  | b :: bs => (group ctx cache b.path).1 :: runExts ctx (group ctx cache b.path).2 bs

/-- The metric columns `COLS = ('files', 'lines', 'blanks', 'bytes')`. -/
def COLS : List String := ["files", "lines", "blanks", "bytes"]

/-- How many lines of a list select metric `m` under `lineKey`. -/
def countKey (m : String) (ls : List (List Char)) : Int :=
  ((ls.filter (fun l => lineKey l = m)).length : Int)

/-- The net contribution of one blob to any single row of the table: one
file, its byte size, and its blank/non-blank line counts. -/
def blobDelta (b : Blob) (m : String) : Int :=
  (if m = "files" then 1 else 0) + (if m = "bytes" then (b.size : Int) else 0)
    + countKey m (pyReadlines b.content)

/-- Total contribution of a list of blobs to metric `m`. -/
def sumDeltas (blobs : List Blob) (m : String) : Int :=
  (blobs.map (fun b => blobDelta b m)).sum

/-- Stable ascending insertion: place `x` after every element that compares
less-or-equal, matching the tie behavior of Python's stable `sorted`. -/
def insertLe {α : Type} (le : α → α → Bool) (x : α) : List α → List α
  | [] => [x]
  | y :: ys => if le y x then y :: insertLe le x ys else x :: y :: ys

/-- Stable sort by repeated insertion, processing elements left to right;
for a total comparison this agrees with Python's `sorted`. -/
def stableSort {α : Type} (le : α → α → Bool) (l : List α) : List α :=
  l.foldl (fun acc x => insertLe le x acc) []

/-- `[counts[col] for col in cols]` on a `defaultdict(int)`: read each
column in order, inserting a 0 entry at each miss, returning the observed
values together with the counter as mutated. -/
def readColsAux : List String → Counter → List Int × Counter
  | [], es => ([], es)
  | k :: ks, es =>
    let v := (dgetE es k).1
    let rest := readColsAux ks (dgetE es k).2
    (v :: rest.1, rest.2)

/-- Executable check that a list is ascending under an integer key:
every adjacent pair is ordered. -/
def ascendingBy {α : Type} (key : α → Int) : List α → Bool
  | [] => true
  | [_] => true
  | x :: y :: t => decide (key x ≤ key y) && ascendingBy key (y :: t)

/-- The rows `csv.writer` receives: the fixed header row and one data row
per group, each data row holding the group key and the four metric values
in `COLS` order. -/
structure CsvOut where
  header : List String
  rows : List (String × List Int)
deriving DecidableEq

/-- The CLI string of each groupby mode, the value stored in
`config['groupby']`. -/
def groupbyName : GroupBy → String
  | .extension => "extension"
  | .mimeType => "mime-type"
  | .language => "language"

/-- The CSV sort key `lambda x: x[1]`: rows are flat lists
`[ext, files, lines, blanks, bytes]`, so `x[1]` is the FILES value, the
element at index 0 of the metric-value list. -/
def csvRowLe (r s : String × List Int) : Bool :=
  decide (r.2.getD 0 0 ≤ s.2.getD 0 0)

/-- The `csv` branch of `fmttotals`: build one row per group in table
order (mutating each counter through the `defaultdict` reads), then write
the header and the rows sorted by `x[1]`. Returns the rows written and the
counter table as left after formatting. -/
def fmtCsv (ctx : Ctx) (t : Totals) : CsvOut × Totals :=
  let pairs := t.map (fun e => (e.1, readColsAux COLS e.2))
  let rows := pairs.map (fun p => (p.1, p.2.1))
  let t1 := pairs.map (fun p => (p.1, p.2.2))
  (⟨groupbyName ctx.groupby :: COLS, stableSort csvRowLe rows⟩, t1)

/-- The table sort key `lambda x: x[1]['lines']` over decorated pairs
`(ext, (lines value, counter))`. -/
def tableKeyLe (p q : String × Int × Counter) : Bool :=
  decide (p.2.1 ≤ q.2.1)

/-- The `table` branch of `fmttotals`: `sorted` first evaluates the key
`x[1]['lines']` on every item in table order (a `defaultdict` read that
inserts a 0 `lines` entry on a miss), then each row is rendered with
`counts[col]` reads that insert the remaining missing columns. Returns the
rendered rows in display order and the counter table as left after
formatting. -/
def fmtTable (t : Totals) : List (String × List Int) × Totals :=
  let pairs := t.map (fun e => (e.1, dgetE e.2 "lines"))
  let t1 : Totals := pairs.map (fun p => (p.1, p.2.2))
  let srt := stableSort tableKeyLe pairs
  let rows := srt.map (fun p => (p.1, (readColsAux COLS p.2.2).1))
  let t2 := t1.map (fun e => (e.1, (readColsAux COLS e.2).2))
  (rows, t2)

/-- String comparison for `sort_keys=True`. -/
def strLe (a b : String) : Bool :=
  decide (a ≤ b)

/-- The `json` branch of `fmttotals`: `json.dump(totals, f, sort_keys=True)`
serializes the table with keys sorted at both nesting levels and performs
no `defaultdict` subscript reads, leaving the table untouched. -/
def fmtJson (t : Totals) : Totals × Totals :=
  ((stableSort (fun a b => strLe a.1 b.1) t).map
     (fun e => (e.1, stableSort (fun a b => strLe a.1 b.1) e.2)), t)

/-- The `yaml` branch of `fmttotals`: dump `{key: dict(counts)}`, a plain
copy of the nested structure in insertion order, leaving the table
untouched. -/
def fmtYaml (t : Totals) : Totals × Totals :=
  (t.map (fun e => (e.1, e.2)), t)

/-- The four `--format` choices. -/
inductive Fmt
  | table
  | csv
  | json
  | yaml
deriving DecidableEq

/-- What `fmttotals` emits: rendered table rows, the CSV header and rows,
or the nested structure handed to the JSON or YAML serializer. -/
inductive Output where
  | table : List (String × List Int) → Output
  | csv : CsvOut → Output
  | json : Totals → Output
  | yaml : Totals → Output
deriving DecidableEq

/-- `fmttotals(repo)`: dispatch on the configured format, returning the
emitted output together with the counter table as left after
formatting. -/
def fmttotals (ctx : Ctx) (fmt : Fmt) (t : Totals) : Output × Totals :=
  match fmt with
  | .table => (Output.table (fmtTable t).1, (fmtTable t).2)
  | .csv => (Output.csv (fmtCsv ctx t).1, (fmtCsv ctx t).2)
  | .json => (Output.json (fmtJson t).1, (fmtJson t).2)
  | .yaml => (Output.yaml (fmtYaml t).1, (fmtYaml t).2)

/-- The extension rule exactly as the spec words it: the substring after
the last `.` in the filename, `other` for a filename containing no `.`.
Stated for comparison with the implemented classifier. -/
def specExtensionKey (name : String) : String :=
  if name.data.contains '.' then
    String.mk ((name.data.reverse.takeWhile (fun c => c != '.')).reverse)
  else "other"

/-- An extension-mode context (the language table and MIME oracle are
unused by the extension branch). -/
def ctxExtension : Ctx := ⟨.extension, [], fun _ => none⟩

/-- A language-mode context over an empty language table. -/
def ctxLanguage : Ctx := ⟨.language, [], fun _ => none⟩

/-- One per-commit per-file change record of history mode, carrying the
insertion and deletion counts of the commit's diff statistics. -/
structure Change where
  file : String
  insertions : Int
  deletions : Int

/-- The extension-mode group key of a path. -/
def extKeyOf (path : String) : String :=
  (group ctxExtension [] path).1

/-- Modelled from the spec: history mode is absent from the source file
(only tree mode is implemented there); the spec describes it as, per
(commit, file, change) triple: classify the file's extension, compute
`net = insertions - deletions`, and when `net != 0` add `net` to that
extension's running total and to the `total` running total under the
single `net-lines` metric; zero-delta changes are skipped. -/
def historyStep (t : Totals) (c : Change) : Totals :=
  let net := c.insertions - c.deletions
  if net = 0 then t
  else
    incrT (incrT (setdefaultT t (extKeyOf c.file)) (extKeyOf c.file) "net-lines" net)
      "total" "net-lines" net

/-- Modelled from the spec: history mode folds every change of every
commit reachable from HEAD through `historyStep`, starting from a table
holding only the reserved `total` row. -/
def runHistory (commits : List (List Change)) : Totals :=
  commits.foldl (fun t cs => cs.foldl historyStep t) initTotals

/-! ### Association-list lemmas -/

theorem lookupE_append_some {α : Type} {k : String} {es fs : List (String × α)} {v : α}
    (h : lookupE k es = some v) : lookupE k (es ++ fs) = some v := by
  induction es with
  | nil => simp [lookupE] at h
  | cons e es ih =>
    by_cases he : e.1 = k
    · simpa [lookupE, he] using h
    · simp only [lookupE, he, if_neg] at h ⊢
      exact ih h

theorem lookupE_append_none {α : Type} {k : String} {es fs : List (String × α)}
    (h : lookupE k es = none) : lookupE k (es ++ fs) = lookupE k fs := by
  induction es with
  | nil => simp [lookupE]
  | cons e es ih =>
    by_cases he : e.1 = k
    · simp [lookupE, he] at h
    · simp only [lookupE, he, if_neg] at h ⊢
      exact ih h

theorem lookupE_isSome_iff {α : Type} {k : String} {es : List (String × α)} :
    (lookupE k es).isSome = true ↔ k ∈ es.map (fun e => e.1) := by
  induction es with
  | nil => simp [lookupE]
  | cons e es ih =>
    by_cases he : e.1 = k
    · simp [lookupE, he]
    · have hk : ¬ k = e.1 := fun h => he h.symm
      simp [lookupE, he, hk, ih]

theorem getE_incrE_self (es : Counter) (k : String) (n : Int) :
    getE (incrE es k n) k = getE es k + n := by
  induction es with
  | nil => simp [incrE, getE, lookupE]
  | cons e es ih =>
    by_cases he : e.1 = k
    · simp [incrE, getE, lookupE, he]
    · simpa [incrE, getE, lookupE, he] using ih

theorem getE_incrE_other (es : Counter) {k k2 : String} (h : k2 ≠ k) (n : Int) :
    getE (incrE es k n) k2 = getE es k2 := by
  induction es with
  | nil =>
    have h' : ¬ k = k2 := fun e => h e.symm
    simp [incrE, getE, lookupE, h']
  | cons e es ih =>
    have h' : ¬ k = k2 := fun e => h e.symm
    by_cases he : e.1 = k
    · have h2 : ¬ e.1 = k2 := fun e2 => h (e2.symm.trans he)
      simp [incrE, getE, lookupE, he, h2, h']
    · by_cases h2 : e.1 = k2
      · simp [incrE, getE, lookupE, he, h2, h]
      · simpa [incrE, getE, lookupE, he, h2] using ih

theorem getE_incrE (es : Counter) (k k2 : String) (n : Int) :
    getE (incrE es k n) k2 = getE es k2 + if k2 = k then n else 0 := by
  by_cases h : k2 = k
  · subst h; simp [getE_incrE_self]
  · simp [getE_incrE_other es h, h]

theorem dgetE_fst (es : Counter) (k : String) : (dgetE es k).1 = getE es k := by
  unfold dgetE getE
  cases h : lookupE k es <;> simp [h]

theorem getE_dgetE (es : Counter) (k k2 : String) :
    getE (dgetE es k).2 k2 = getE es k2 := by
  unfold dgetE
  cases h : lookupE k es with
  | some v => rfl
  | none =>
    cases h2 : lookupE k2 es with
    | some w => simp [getE, lookupE_append_some h2, h2]
    | none =>
      rw [getE, lookupE_append_none h2]
      by_cases hk : k = k2
      · simp [lookupE, hk, getE, h2]
      · simp [lookupE, hk, getE, h2]

/-! ### Lines read from a blob are never empty -/

theorem pySplitLinesAux_ne_nil : ∀ (cs acc : List Char) (l : List Char),
    l ∈ pySplitLinesAux cs acc → l ≠ [] := by
  intro cs
  induction cs with
  | nil =>
    intro acc l hl
    unfold pySplitLinesAux at hl
    by_cases h : acc.isEmpty
    · simp [h] at hl
    · rw [if_neg h, List.mem_singleton] at hl
      subst hl
      simp only [ne_eq, List.reverse_eq_nil_iff]
      intro hacc
      rw [hacc] at h
      exact h rfl
  | cons c cs ih =>
    intro acc l hl
    unfold pySplitLinesAux at hl
    by_cases hc : c = '\n'
    · rw [if_pos hc, List.mem_cons] at hl
      rcases hl with rfl | hl
      · simp
      · exact ih [] l hl
    · rw [if_neg hc] at hl
      exact ih (c :: acc) l hl

theorem pyReadlines_ne_nil {s : String} {l : List Char} (h : l ∈ pyReadlines s) :
    l ≠ [] :=
  pySplitLinesAux_ne_nil s.data [] l h

/-! ### Counter-table lemmas -/

theorem getT_incrT (t : Totals) {g : String} (k : String) (n : Int) (g2 k2 : String)
    (hp : (lookupE g t).isSome = true) :
    getT (incrT t g k n) g2 k2 = getT t g2 k2 + if g2 = g ∧ k2 = k then n else 0 := by
  induction t with
  | nil => simp [lookupE] at hp
  | cons e es ih =>
    by_cases he : e.1 = g
    · by_cases h2 : e.1 = g2
      · have hg2 : g2 = g := h2.symm.trans he
        simp [incrT, getT, lookupE, he, h2, getE_incrE, hg2]
      · have hg2 : ¬ g2 = g := fun x => h2 (he.trans x.symm)
        have hgg2 : ¬ g = g2 := fun x => h2 (he.trans x)
        simp [incrT, getT, lookupE, he, h2, hg2, hgg2]
    · have hp' : (lookupE g es).isSome = true := by
        simpa [lookupE, he] using hp
      by_cases h2 : e.1 = g2
      · have hg2 : ¬ g2 = g := fun x => he (h2.trans x)
        simp [incrT, getT, lookupE, he, h2, hg2]
      · simpa [incrT, getT, lookupE, he, h2] using ih hp'

theorem incrT_of_none (t : Totals) {g : String} (h : lookupE g t = none)
    (k : String) (n : Int) : incrT t g k n = t := by
  induction t with
  | nil => rfl
  | cons e es ih =>
    by_cases he : e.1 = g
    · simp [lookupE, he] at h
    · simp only [lookupE, if_neg he] at h
      simp [incrT, he, ih h]

theorem keysT_incrT (t : Totals) (g k : String) (n : Int) :
    keysT (incrT t g k n) = keysT t := by
  induction t with
  | nil => rfl
  | cons e es ih =>
    by_cases he : e.1 = g
    · simp [incrT, keysT, he]
    · simp only [incrT, if_neg he]
      simp only [keysT, List.map_cons] at ih ⊢
      rw [ih]

theorem lookupE_incrT_isSome (t : Totals) (g k : String) (n : Int) (g2 : String) :
    (lookupE g2 (incrT t g k n)).isSome = (lookupE g2 t).isSome := by
  rw [Bool.eq_iff_iff, lookupE_isSome_iff, lookupE_isSome_iff]
  have h := keysT_incrT t g k n
  simp only [keysT] at h
  rw [h]

theorem getT_setdefaultT (t : Totals) (g g2 k2 : String) :
    getT (setdefaultT t g) g2 k2 = getT t g2 k2 := by
  unfold setdefaultT
  cases h : lookupE g t with
  | some v => rfl
  | none =>
    cases h2 : lookupE g2 t with
    | some w => simp [getT, lookupE_append_some h2, h2]
    | none =>
      rw [getT, lookupE_append_none h2]
      by_cases hg : g = g2
      · simp [lookupE, hg, getT, h2, getE]
      · simp [lookupE, hg, getT, h2]

theorem lookupE_setdefaultT_self (t : Totals) (g : String) :
    (lookupE g (setdefaultT t g)).isSome = true := by
  unfold setdefaultT
  cases h : lookupE g t with
  | some v => simp [h]
  | none => simp [lookupE_append_none h, lookupE]

theorem lookupE_setdefaultT_mono (t : Totals) (g g2 : String)
    (h : (lookupE g2 t).isSome = true) :
    (lookupE g2 (setdefaultT t g)).isSome = true := by
  unfold setdefaultT
  cases hg : lookupE g t with
  | some v => exact h
  | none =>
    obtain ⟨v, hv⟩ := Option.isSome_iff_exists.mp h
    simp [lookupE_append_some hv]

theorem nonTotalSum_cons (e : String × Counter) (es : List (String × Counter)) (m : String) :
    nonTotalSum (e :: es) m
      = (if e.1 = "total" then 0 else getE e.2 m) + nonTotalSum es m := by
  by_cases he : e.1 = "total" <;> simp [nonTotalSum, List.filter_cons, he]

theorem nonTotalSum_incrT_total (t : Totals) (k : String) (n : Int) (m : String) :
    nonTotalSum (incrT t "total" k n) m = nonTotalSum t m := by
  induction t with
  | nil => rfl
  | cons e es ih =>
    by_cases he : e.1 = "total"
    · simp [incrT, he, nonTotalSum_cons]
    · simp [incrT, he, nonTotalSum_cons, ih]

theorem nonTotalSum_incrT (t : Totals) {g : String} (hg : g ≠ "total")
    (k : String) (n : Int) (m : String) (hp : (lookupE g t).isSome = true) :
    nonTotalSum (incrT t g k n) m = nonTotalSum t m + if m = k then n else 0 := by
  induction t with
  | nil => simp [lookupE] at hp
  | cons e es ih =>
    by_cases he : e.1 = g
    · have hket : ¬ e.1 = "total" := fun x => hg (he.symm.trans x)
      simp only [incrT, if_pos he, nonTotalSum_cons, if_neg hket, getE_incrE]
      ring
    · have hp' : (lookupE g es).isSome = true := by
        simpa [lookupE, he] using hp
      simp only [incrT, if_neg he, nonTotalSum_cons]
      rw [ih hp']
      ring

theorem nonTotalSum_setdefaultT (t : Totals) (g : String) (m : String) :
    nonTotalSum (setdefaultT t g) m = nonTotalSum t m := by
  unfold setdefaultT
  cases h : lookupE g t with
  | some v => rfl
  | none =>
    by_cases hg : g = "total"
    · simp [nonTotalSum, List.filter_append, hg, getE, lookupE]
    · simp [nonTotalSum, List.filter_append, hg, getE, lookupE]

/-! ### Accumulation lemmas -/

theorem countKey_cons (m : String) (l : List Char) (ls : List (List Char)) :
    countKey m (l :: ls) = (if lineKey l = m then 1 else 0) + countKey m ls := by
  by_cases h : lineKey l = m
  · simp only [countKey, List.filter_cons]
    rw [if_pos (by simp [h]), if_pos h]
    simp only [List.length_cons]
    push_cast
    ring
  · simp only [countKey, List.filter_cons]
    rw [if_neg (by simp [h]), if_neg h]
    simp

theorem countKey_of_ne (ls : List (List Char)) {m : String}
    (h1 : m ≠ "lines") (h2 : m ≠ "blanks") : countKey m ls = 0 := by
  induction ls with
  | nil => rfl
  | cons l ls ih =>
    rw [countKey_cons, ih]
    have hb : ¬ ("blanks" = m) := fun x => h2 x.symm
    have hl : ¬ ("lines" = m) := fun x => h1 x.symm
    have hnot : ¬ lineKey l = m := by
      unfold lineKey
      by_cases hsp : pyIsspaceL l
      · simpa [hsp] using hb
      · simpa [hsp] using hl
    simp [hnot]

theorem countKey_lines_add_blanks (ls : List (List Char)) :
    countKey "lines" ls + countKey "blanks" ls = (ls.length : Int) := by
  induction ls with
  | nil => rfl
  | cons l ls ih =>
    rw [countKey_cons, countKey_cons]
    have hkey : lineKey l = "blanks" ∨ lineKey l = "lines" := by
      unfold lineKey
      by_cases hsp : pyIsspaceL l <;> simp [hsp]
    have hne : ("blanks" : String) ≠ "lines" := by decide
    rcases hkey with hk | hk
    · rw [hk, if_neg hne, if_pos rfl, List.length_cons]
      push_cast
      omega
    · rw [hk, if_pos rfl, if_neg hne.symm, List.length_cons]
      push_cast
      omega

theorem lookupE_treeLine_isSome (ext : String) (t : Totals) (l : List Char) (g2 : String) :
    (lookupE g2 (treeLine ext t l)).isSome = (lookupE g2 t).isSome := by
  unfold treeLine
  rw [lookupE_incrT_isSome, lookupE_incrT_isSome]

theorem treeLine_getT_total {ext : String} (hext : ext ≠ "total") (t : Totals)
    (hpe : (lookupE ext t).isSome = true) (hpt : (lookupE "total" t).isSome = true)
    (l : List Char) (m : String) :
    getT (treeLine ext t l) "total" m
      = getT t "total" m + if m = lineKey l then 1 else 0 := by
  have hte : ¬ ("total" = ext) := fun x => hext x.symm
  unfold treeLine
  rw [getT_incrT _ _ _ _ _ (by rw [lookupE_incrT_isSome]; exact hpt)]
  rw [getT_incrT _ _ _ _ _ hpe]
  simp [hte]

theorem treeLine_nonTotalSum {ext : String} (hext : ext ≠ "total") (t : Totals)
    (hpe : (lookupE ext t).isSome = true) (l : List Char) (m : String) :
    nonTotalSum (treeLine ext t l) m
      = nonTotalSum t m + if m = lineKey l then 1 else 0 := by
  unfold treeLine
  rw [nonTotalSum_incrT_total, nonTotalSum_incrT _ hext _ _ _ hpe]

theorem lineFold_props {ext : String} (hext : ext ≠ "total") (m : String) :
    ∀ (ls : List (List Char)) (t : Totals),
      (lookupE ext t).isSome = true → (lookupE "total" t).isSome = true →
      getT (ls.foldl (treeLine ext) t) "total" m = getT t "total" m + countKey m ls
      ∧ nonTotalSum (ls.foldl (treeLine ext) t) m = nonTotalSum t m + countKey m ls
      ∧ (lookupE "total" (ls.foldl (treeLine ext) t)).isSome = true := by
  intro ls
  induction ls with
  | nil =>
    intro t hpe hpt
    refine ⟨by simp [countKey], by simp [countKey], hpt⟩
  | cons l ls ih =>
    intro t hpe hpt
    rw [List.foldl_cons]
    have hpe' : (lookupE ext (treeLine ext t l)).isSome = true := by
      rw [lookupE_treeLine_isSome]; exact hpe
    have hpt' : (lookupE "total" (treeLine ext t l)).isSome = true := by
      rw [lookupE_treeLine_isSome]; exact hpt
    obtain ⟨ih1, ih2, ih3⟩ := ih (treeLine ext t l) hpe' hpt'
    have hswap : (if m = lineKey l then (1 : Int) else 0) = if lineKey l = m then 1 else 0 := by
      by_cases h : m = lineKey l
      · rw [if_pos h, if_pos h.symm]
      · rw [if_neg h, if_neg (fun x => h x.symm)]
    refine ⟨?_, ?_, ih3⟩
    · rw [ih1, treeLine_getT_total hext t hpe hpt l m, countKey_cons, hswap]
      ring
    · rw [ih2, treeLine_nonTotalSum hext t hpe l m, countKey_cons, hswap]
      ring

theorem getT_incrT_other_row (t : Totals) {g g2 : String} (h : g2 ≠ g)
    (k : String) (n : Int) (k2 : String) :
    getT (incrT t g k n) g2 k2 = getT t g2 k2 := by
  cases hl : lookupE g t with
  | none => rw [incrT_of_none t hl]
  | some v =>
    rw [getT_incrT t k n g2 k2 (by simp [hl])]
    simp [h]

theorem getT_incrT_self_row (t : Totals) {g : String}
    (hp : (lookupE g t).isSome = true) (k : String) (n : Int) (k2 : String) :
    getT (incrT t g k n) g k2 = getT t g k2 + if k2 = k then n else 0 := by
  rw [getT_incrT t k n g k2 hp]
  simp

theorem treeStep_props (ctx : Ctx) (t : Totals) (cache : Cache) (b : Blob) (m : String)
    (hext : (group ctx cache b.path).1 ≠ "total")
    (hpt : (lookupE "total" t).isSome = true) :
    getT (treeStep ctx (t, cache) b).1 "total" m = getT t "total" m + blobDelta b m
    ∧ nonTotalSum (treeStep ctx (t, cache) b).1 m = nonTotalSum t m + blobDelta b m
    ∧ (lookupE "total" (treeStep ctx (t, cache) b).1).isSome = true := by
  set ext := (group ctx cache b.path).1 with hextdef
  have hte : ¬ ("total" = ext) := fun x => hext x.symm
  set t4 := incrT (incrT (incrT (incrT (setdefaultT t ext) ext "files" 1)
    "total" "files" 1) ext "bytes" (b.size : Int)) "total" "bytes" (b.size : Int) with ht4
  have step_eq : (treeStep ctx (t, cache) b).1
      = (pyReadlines b.content).foldl (treeLine ext) t4 := rfl
  have h0e : (lookupE ext (setdefaultT t ext)).isSome = true :=
    lookupE_setdefaultT_self t ext
  have h0t : (lookupE "total" (setdefaultT t ext)).isSome = true :=
    lookupE_setdefaultT_mono t ext "total" hpt
  have h4e : (lookupE ext t4).isSome = true := by
    rw [ht4]
    simp only [lookupE_incrT_isSome]
    exact h0e
  have h4t : (lookupE "total" t4).isSome = true := by
    rw [ht4]
    simp only [lookupE_incrT_isSome]
    exact h0t
  obtain ⟨hf1, hf2, hf3⟩ := lineFold_props hext m (pyReadlines b.content) t4 h4e h4t
  have hg4 : getT t4 "total" m = getT t "total" m
      + ((if m = "files" then (1 : Int) else 0) + (if m = "bytes" then (b.size : Int) else 0)) := by
    rw [ht4]
    rw [getT_incrT_self_row _ (by simp only [lookupE_incrT_isSome]; exact h0t)]
    rw [getT_incrT_other_row _ hte]
    rw [getT_incrT_self_row _ (by simp only [lookupE_incrT_isSome]; exact h0t)]
    rw [getT_incrT_other_row _ hte]
    rw [getT_setdefaultT]
    ring
  have hn4 : nonTotalSum t4 m = nonTotalSum t m
      + ((if m = "files" then (1 : Int) else 0) + (if m = "bytes" then (b.size : Int) else 0)) := by
    rw [ht4]
    rw [nonTotalSum_incrT_total]
    rw [nonTotalSum_incrT _ hext _ _ _ (by simp only [lookupE_incrT_isSome]; exact h0e)]
    rw [nonTotalSum_incrT_total]
    rw [nonTotalSum_incrT _ hext _ _ _ h0e]
    rw [nonTotalSum_setdefaultT]
    ring
  refine ⟨?_, ?_, ?_⟩
  · rw [step_eq, hf1, hg4]
    unfold blobDelta
    ring
  · rw [step_eq, hf2, hn4]
    unfold blobDelta
    ring
  · rw [step_eq]
    exact hf3

theorem sumDeltas_cons (b : Blob) (bs : List Blob) (m : String) :
    sumDeltas (b :: bs) m = blobDelta b m + sumDeltas bs m := by
  simp [sumDeltas]

theorem treeRun_props (ctx : Ctx) (m : String) :
    ∀ (blobs : List Blob) (t : Totals) (cache : Cache),
      (lookupE "total" t).isSome = true →
      "total" ∉ runExts ctx cache blobs →
      getT (blobs.foldl (treeStep ctx) (t, cache)).1 "total" m
        = getT t "total" m + sumDeltas blobs m
      ∧ nonTotalSum (blobs.foldl (treeStep ctx) (t, cache)).1 m
        = nonTotalSum t m + sumDeltas blobs m
      ∧ (lookupE "total" (blobs.foldl (treeStep ctx) (t, cache)).1).isSome = true := by
  intro blobs
  induction blobs with
  | nil =>
    intro t cache hpt _
    exact ⟨by simp [sumDeltas], by simp [sumDeltas], hpt⟩
  | cons b bs ih =>
    intro t cache hpt hnot
    have hext : (group ctx cache b.path).1 ≠ "total" := by
      intro h
      apply hnot
      rw [runExts, h]
      exact List.mem_cons_self _ _
    have hnot2 : "total" ∉ runExts ctx (group ctx cache b.path).2 bs := by
      intro h
      exact hnot (by rw [runExts]; exact List.mem_cons_of_mem _ h)
    obtain ⟨hs1, hs2, hs3⟩ := treeStep_props ctx t cache b m hext hpt
    obtain ⟨ih1, ih2, ih3⟩ :=
      ih (treeStep ctx (t, cache) b).1 (treeStep ctx (t, cache) b).2 hs3 hnot2
    have heta : bs.foldl (treeStep ctx)
        ((treeStep ctx (t, cache) b).1, (treeStep ctx (t, cache) b).2)
        = bs.foldl (treeStep ctx) (treeStep ctx (t, cache) b) := rfl
    rw [heta] at ih1 ih2 ih3
    refine ⟨?_, ?_, ?_⟩
    · rw [List.foldl_cons, ih1, hs1, sumDeltas_cons]
      ring
    · rw [List.foldl_cons, ih2, hs2, sumDeltas_cons]
      ring
    · rw [List.foldl_cons]
      exact ih3

theorem blobDelta_files (b : Blob) : blobDelta b "files" = 1 := by
  unfold blobDelta
  rw [countKey_of_ne _ (by decide) (by decide)]
  simp

theorem sumDeltas_files (blobs : List Blob) :
    sumDeltas blobs "files" = (blobs.length : Int) := by
  induction blobs with
  | nil => rfl
  | cons b bs ih =>
    rw [sumDeltas_cons, blobDelta_files, ih, List.length_cons]
    push_cast
    ring

theorem blobDelta_lines_add_blanks (b : Blob) :
    blobDelta b "lines" + blobDelta b "blanks"
      = ((pyReadlines b.content).length : Int) := by
  unfold blobDelta
  have h := countKey_lines_add_blanks (pyReadlines b.content)
  rw [if_neg (show ¬ ("lines" : String) = "files" by decide),
    if_neg (show ¬ ("lines" : String) = "bytes" by decide),
    if_neg (show ¬ ("blanks" : String) = "files" by decide),
    if_neg (show ¬ ("blanks" : String) = "bytes" by decide)]
  omega

theorem sumDeltas_lines_add_blanks (blobs : List Blob) :
    sumDeltas blobs "lines" + sumDeltas blobs "blanks"
      = (blobs.map (fun b => ((pyReadlines b.content).length : Int))).sum := by
  induction blobs with
  | nil => rfl
  | cons b bs ih =>
    rw [sumDeltas_cons, sumDeltas_cons, List.map_cons, List.sum_cons, ← ih,
      ← blobDelta_lines_add_blanks b]
    ring

theorem initTotals_total_isSome : (lookupE "total" initTotals).isSome = true := by
  decide

theorem getT_initTotals (g k : String) : getT initTotals g k = 0 := by
  unfold initTotals getT getE
  by_cases h : g = "total"
  · simp [lookupE, h, lookupE]
  · have h2 : ¬ ("total" = g) := fun x => h x.symm
    simp [lookupE, h2]

theorem nonTotalSum_initTotals (m : String) : nonTotalSum initTotals m = 0 := by
  simp [nonTotalSum, initTotals]

/-! ### Claim C1 -/

/-- C1 (amended): after a tree-mode run in which no visited blob classifies
to the reserved group key `total`, every metric's `total` entry equals the
sum of that metric across all non-total groups, and `total.files` equals
the number of blobs visited. -/
theorem tree_total_matches_group_sums (ctx : Ctx) (blobs : List Blob) (m : String)
    (h : "total" ∉ runExts ctx [] blobs) :
    getT (tree ctx blobs).1 "total" m = nonTotalSum (tree ctx blobs).1 m
    ∧ getT (tree ctx blobs).1 "total" "files" = (blobs.length : Int) := by
  have e : tree ctx blobs = blobs.foldl (treeStep ctx) (initTotals, []) := rfl
  obtain ⟨h1, h2, _⟩ := treeRun_props ctx m blobs initTotals [] initTotals_total_isSome h
  obtain ⟨hf, _, _⟩ := treeRun_props ctx "files" blobs initTotals [] initTotals_total_isSome h
  rw [e]
  refine ⟨?_, ?_⟩
  · rw [h1, h2, getT_initTotals, nonTotalSum_initTotals]
  · rw [hf, getT_initTotals, sumDeltas_files]
    ring

/-- Witness for C1: a concrete one-blob repository satisfying the
precondition, with the equalities evaluated. -/
theorem tree_total_matches_group_sums_witness :
    ("total" ∉ runExts ctxExtension [] [⟨"a.py", 4, "x\n\n"⟩])
    ∧ (getT (tree ctxExtension [⟨"a.py", 4, "x\n\n"⟩]).1 "total" "lines"
        = nonTotalSum (tree ctxExtension [⟨"a.py", 4, "x\n\n"⟩]).1 "lines"
      ∧ getT (tree ctxExtension [⟨"a.py", 4, "x\n\n"⟩]).1 "total" "files" = 1) :=
  ⟨by decide, by
    simpa using tree_total_matches_group_sums ctxExtension [⟨"a.py", 4, "x\n\n"⟩]
      "lines" (by decide)⟩

/-- C1 counterexample: a blob named `x.total` classifies to the reserved
key `total` in extension mode, so its metrics are added twice to the
`total` row: `total.files` is 2 while the non-total groups sum to 0 and
only 1 blob was visited. -/
theorem tree_total_row_invariant_fails_on_total_key :
    getT (tree ctxExtension [⟨"x.total", 3, "a\n"⟩]).1 "total" "files" = 2
    ∧ nonTotalSum (tree ctxExtension [⟨"x.total", 3, "a\n"⟩]).1 "files" = 0
    ∧ ([Blob.mk "x.total" 3 "a\n"].length : Int) = 1 := by
  decide

/-! ### Claim C5 -/

/-- C5 (amended): after a tree-mode run in which no visited blob
classifies to the reserved key `total`, `total.lines + total.blanks`
equals the sum over all visited blobs of their line counts. -/
theorem tree_total_lines_blanks_conservation (ctx : Ctx) (blobs : List Blob)
    (h : "total" ∉ runExts ctx [] blobs) :
    getT (tree ctx blobs).1 "total" "lines" + getT (tree ctx blobs).1 "total" "blanks"
      = (blobs.map (fun b => ((pyReadlines b.content).length : Int))).sum := by
  have e : tree ctx blobs = blobs.foldl (treeStep ctx) (initTotals, []) := rfl
  obtain ⟨hl, _, _⟩ := treeRun_props ctx "lines" blobs initTotals [] initTotals_total_isSome h
  obtain ⟨hb, _, _⟩ := treeRun_props ctx "blanks" blobs initTotals [] initTotals_total_isSome h
  rw [e, hl, hb, getT_initTotals, getT_initTotals, ← sumDeltas_lines_add_blanks]
  ring

/-- Witness for C5: a two-line blob (one code line, one blank line), with
the conservation equality evaluated. -/
theorem tree_total_lines_blanks_conservation_witness :
    ("total" ∉ runExts ctxExtension [] [⟨"a.py", 4, "x\n \n"⟩])
    ∧ getT (tree ctxExtension [⟨"a.py", 4, "x\n \n"⟩]).1 "total" "lines"
        + getT (tree ctxExtension [⟨"a.py", 4, "x\n \n"⟩]).1 "total" "blanks" = 2 :=
  ⟨by decide, by
    simpa using tree_total_lines_blanks_conservation ctxExtension
      [⟨"a.py", 4, "x\n \n"⟩] (by decide)⟩

/-- C5 counterexample: a blob named `x.total` classifies to `total` in
extension mode, so its single line is counted twice in the `total` row:
`total.lines + total.blanks` is 2 while the blob line counts sum to 1. -/
theorem tree_total_lines_blanks_overcount :
    getT (tree ctxExtension [⟨"x.total", 3, "a\n"⟩]).1 "total" "lines"
      + getT (tree ctxExtension [⟨"x.total", 3, "a\n"⟩]).1 "total" "blanks" = 2
    ∧ ([Blob.mk "x.total" 3 "a\n"].map
        (fun b => ((pyReadlines b.content).length : Int))).sum = 1 := by
  decide

/-! ### Claim C10 -/

theorem lineFold_total_getT (m : String) :
    ∀ (ls : List (List Char)) (t : Totals),
      (lookupE "total" t).isSome = true →
      getT (ls.foldl (treeLine "total") t) "total" m
        = getT t "total" m + 2 * countKey m ls := by
  intro ls
  induction ls with
  | nil =>
    intro t _
    simp [countKey]
  | cons l ls ih =>
    intro t hpt
    rw [List.foldl_cons]
    have hpt2 : (lookupE "total" (treeLine "total" t l)).isSome = true := by
      rw [lookupE_treeLine_isSome]
      exact hpt
    rw [ih (treeLine "total" t l) hpt2]
    have hstep : getT (treeLine "total" t l) "total" m
        = getT t "total" m + 2 * (if lineKey l = m then (1 : Int) else 0) := by
      unfold treeLine
      rw [getT_incrT_self_row _ (by rw [lookupE_incrT_isSome]; exact hpt)]
      rw [getT_incrT_self_row _ hpt]
      have hswap : (if m = lineKey l then (1 : Int) else 0)
          = if lineKey l = m then 1 else 0 := by
        by_cases h : m = lineKey l
        · rw [if_pos h, if_pos h.symm]
        · rw [if_neg h, if_neg (fun x => h x.symm)]
      rw [hswap]
      ring
    rw [hstep, countKey_cons]
    ring

/-- C10: when a visited blob's path classifies to the reserved key
`total`, the tree accumulation step adds that blob's metrics TWICE to the
`total` row (once as the blob's group and once as the running total), so
the sum-over-non-total-groups invariant and the blob-count property only
hold under the precondition that no classified group key equals
`total`. -/
theorem treeStep_total_group_double_counts (ctx : Ctx) (t : Totals) (cache : Cache)
    (b : Blob) (m : String)
    (hext : (group ctx cache b.path).1 = "total") :
    getT (treeStep ctx (t, cache) b).1 "total" m
      = getT t "total" m + 2 * blobDelta b m := by
  have step_eq : (treeStep ctx (t, cache) b).1
      = (pyReadlines b.content).foldl (treeLine "total")
          (incrT (incrT (incrT (incrT (setdefaultT t "total") "total" "files" 1)
            "total" "files" 1) "total" "bytes" (b.size : Int)) "total" "bytes"
            (b.size : Int)) := by
    simp only [treeStep]
    rw [hext]
  rw [step_eq]
  have h0 : (lookupE "total" (setdefaultT t "total")).isSome = true :=
    lookupE_setdefaultT_self t "total"
  have h4 : (lookupE "total" (incrT (incrT (incrT (incrT (setdefaultT t "total")
      "total" "files" 1) "total" "files" 1) "total" "bytes" (b.size : Int)) "total"
      "bytes" (b.size : Int))).isSome = true := by
    simp only [lookupE_incrT_isSome]
    exact h0
  rw [lineFold_total_getT m (pyReadlines b.content) _ h4]
  rw [getT_incrT_self_row _ (by simp only [lookupE_incrT_isSome]; exact h0)]
  rw [getT_incrT_self_row _ (by simp only [lookupE_incrT_isSome]; exact h0)]
  rw [getT_incrT_self_row _ (by simp only [lookupE_incrT_isSome]; exact h0)]
  rw [getT_incrT_self_row _ h0]
  rw [getT_setdefaultT]
  unfold blobDelta
  ring

/-- Witness for C10: the `x.total` blob under extension mode, doubling the
`files` metric of the `total` row. -/
theorem treeStep_total_group_double_counts_witness :
    ((group ctxExtension [] "x.total").1 = "total")
    ∧ getT (treeStep ctxExtension (initTotals, []) (Blob.mk "x.total" 3 "a\n")).1
        "total" "files"
      = getT initTotals "total" "files" + 2 * blobDelta (Blob.mk "x.total" 3 "a\n") "files" :=
  ⟨by decide,
    treeStep_total_group_double_counts ctxExtension initTotals []
      (Blob.mk "x.total" 3 "a\n") "files" (by decide)⟩

/-! ### Claim C4 -/

/-- C4: for every line actually read from a blob in tree mode (lines
produced by `readlines` are never empty), the accumulator selects the
`blanks` metric exactly when the line is empty or consists only of
whitespace characters, and otherwise selects the `lines` metric; the two
cases are exclusive. -/
theorem lineKey_blank_iff_whitespace (s : String) (l : List Char)
    (h : l ∈ pyReadlines s) :
    (lineKey l = "blanks" ↔ (l = [] ∨ l.all pyIsWs = true))
    ∧ (lineKey l = "lines" ↔ ¬ (l = [] ∨ l.all pyIsWs = true)) := by
  have hne : l ≠ [] := pyReadlines_ne_nil h
  have hie : l.isEmpty = false := by
    cases l with
    | nil => exact absurd rfl hne
    | cons c cs => rfl
  unfold lineKey pyIsspaceL
  rw [hie]
  cases hall : l.all pyIsWs with
  | false =>
    rw [if_neg (by simp)]
    constructor
    · constructor
      · intro hx
        exact absurd hx (by decide)
      · intro hx
        rcases hx with hx | hx
        · exact absurd hx hne
        · exact absurd hx (by simp [hall])
    · constructor
      · intro _ hx
        rcases hx with hx | hx
        · exact hne hx
        · simp [hall] at hx
      · intro _
        rfl
  | true =>
    rw [if_pos (by simp)]
    constructor
    · constructor
      · intro _
        exact Or.inr rfl
      · intro _
        rfl
    · constructor
      · intro hx
        exact absurd hx (by decide)
      · intro hx
        exact absurd (Or.inr rfl) hx

/-- Witness for C4: the line `"a\n"` read from the blob content `"a\n \n"`
selects the `lines` metric, and the all-whitespace line `" \n"` condition
is visible through the same run. -/
theorem lineKey_blank_iff_whitespace_witness :
    (['a', '\n'] ∈ pyReadlines "a\n \n")
    ∧ ((lineKey ['a', '\n'] = "blanks" ↔ (['a', '\n'] = [] ∨ ['a', '\n'].all pyIsWs = true))
      ∧ (lineKey ['a', '\n'] = "lines" ↔ ¬ (['a', '\n'] = [] ∨ ['a', '\n'].all pyIsWs = true))) :=
  ⟨by decide, lineKey_blank_iff_whitespace "a\n \n" ['a', '\n'] (by decide)⟩

/-! ### Claim C7 -/

/-- C7: within one run, classifying the same path twice through the
memoization cache returns the identical group key both times (and leaves
the cache unchanged on the second call), for every grouping mode, language
table, and starting cache state. -/
theorem group_memoized_idempotent (ctx : Ctx) (cache : Cache) (path : String) :
    group ctx ((group ctx cache path).2) path = group ctx cache path := by
  cases hgb : ctx.groupby with
  | extension =>
    simp only [group, hgb]
    cases hm : pySuffixL (pyName path).data <;> simp [hm]
  | mimeType => simp [group, hgb]
  | language =>
    simp only [group, hgb]
    unfold getlang
    cases hc : lookupE (pyName path) cache with
    | some l => simp [hc]
    | none =>
      cases hf : ctx.langs.find? (fun li =>
          li.2.filenames.contains (pyName path)
          || li.2.extensions.contains (String.mk (pySuffixL (pyName path).data))) with
      | some li =>
        simp only [hc, hf]
        rw [lookupE_append_none hc]
        simp [lookupE]
      | none =>
        simp [hc, hf]

/-! ### Sorting lemmas -/

theorem mem_insertLe {α : Type} (le : α → α → Bool) (x a : α) :
    ∀ l : List α, a ∈ insertLe le x l ↔ a = x ∨ a ∈ l := by
  intro l
  induction l with
  | nil => simp [insertLe]
  | cons y ys ih =>
    unfold insertLe
    by_cases h : le y x = true
    · rw [if_pos h]
      simp only [List.mem_cons, ih]
      tauto
    · rw [if_neg h]
      simp only [List.mem_cons]

theorem mem_stableSort {α : Type} (le : α → α → Bool) (a : α) (l : List α) :
    a ∈ stableSort le l ↔ a ∈ l := by
  unfold stableSort
  suffices h : ∀ (l : List α) (acc : List α),
      a ∈ l.foldl (fun acc x => insertLe le x acc) acc ↔ a ∈ acc ∨ a ∈ l by
    rw [h l []]
    simp
  intro l
  induction l with
  | nil => intro acc; simp
  | cons x xs ih =>
    intro acc
    rw [List.foldl_cons, ih (insertLe le x acc), mem_insertLe]
    simp only [List.mem_cons]
    tauto

theorem ascendingBy_two {α : Type} (key : α → Int) (x y : α) (t : List α) :
    ascendingBy key (x :: y :: t) = true
      ↔ key x ≤ key y ∧ ascendingBy key (y :: t) = true := by
  simp [ascendingBy]

theorem ascendingBy_insertLe {α : Type} (key : α → Int) (le : α → α → Bool)
    (hle : ∀ a b, le a b = true ↔ key a ≤ key b) (x : α) :
    ∀ l : List α, ascendingBy key l = true
      → ascendingBy key (insertLe le x l) = true := by
  intro l
  induction l with
  | nil => intro _; rfl
  | cons y ys ih =>
    intro h
    unfold insertLe
    by_cases hyx : le y x = true
    · rw [if_pos hyx]
      cases ys with
      | nil =>
        rw [show insertLe le x [] = [x] from rfl, ascendingBy_two]
        exact ⟨(hle y x).mp hyx, rfl⟩
      | cons z zs =>
        obtain ⟨h1, h2⟩ := (ascendingBy_two key y z zs).mp h
        have hins := ih h2
        unfold insertLe at hins ⊢
        by_cases hzx : le z x = true
        · rw [if_pos hzx] at hins ⊢
          exact (ascendingBy_two key y z _).mpr ⟨h1, hins⟩
        · rw [if_neg hzx] at hins ⊢
          refine (ascendingBy_two key y x _).mpr ⟨(hle y x).mp hyx, ?_⟩
          exact (ascendingBy_two key x z _).mpr
            ⟨le_of_not_le (fun hc => hzx ((hle z x).mpr hc)), h2⟩
    · rw [if_neg hyx]
      refine (ascendingBy_two key x y _).mpr ⟨?_, h⟩
      exact le_of_not_le (fun hc => hyx ((hle y x).mpr hc))

theorem ascendingBy_stableSort {α : Type} (key : α → Int) (le : α → α → Bool)
    (hle : ∀ a b, le a b = true ↔ key a ≤ key b) (l : List α) :
    ascendingBy key (stableSort le l) = true := by
  unfold stableSort
  suffices h : ∀ (l : List α) (acc : List α), ascendingBy key acc = true →
      ascendingBy key (l.foldl (fun acc x => insertLe le x acc) acc) = true from
    h l [] rfl
  intro l
  induction l with
  | nil => intro acc h; exact h
  | cons x xs ih =>
    intro acc h
    exact ih (insertLe le x acc) (ascendingBy_insertLe key le hle x acc h)

/-! ### Formatter lemmas -/

theorem readColsAux_fst (ks : List String) (es : Counter) :
    (readColsAux ks es).1 = ks.map (fun k => getE es k) := by
  induction ks generalizing es with
  | nil => rfl
  | cons k ks ih =>
    simp only [readColsAux, List.map_cons]
    rw [dgetE_fst, ih]
    congr 1
    exact List.map_congr_left (fun k2 _ => getE_dgetE es k k2)

theorem getE_readColsAux (ks : List String) (es : Counter) (k2 : String) :
    getE (readColsAux ks es).2 k2 = getE es k2 := by
  induction ks generalizing es with
  | nil => rfl
  | cons k ks ih =>
    simp only [readColsAux]
    rw [ih, getE_dgetE]

theorem lookupE_map_snd (f : Counter → Counter) (t : Totals) (g : String) :
    lookupE g (t.map (fun e => (e.1, f e.2))) = (lookupE g t).map f := by
  induction t with
  | nil => rfl
  | cons e es ih =>
    by_cases he : e.1 = g
    · simp [lookupE, he]
    · simp [lookupE, he, ih]

theorem getT_map_snd {f : Counter → Counter}
    (hf : ∀ es k2, getE (f es) k2 = getE es k2) (t : Totals) (g k : String) :
    getT (t.map (fun e => (e.1, f e.2))) g k = getT t g k := by
  unfold getT
  rw [lookupE_map_snd]
  cases h : lookupE g t with
  | none => rfl
  | some es => simp [hf]

theorem keysT_map_snd (f : Counter → Counter) (t : Totals) :
    keysT (t.map (fun e => (e.1, f e.2))) = keysT t := by
  unfold keysT
  rw [List.map_map]
  rfl

/-! ### Claim C3 -/

/-- C3 (amended): formatting never changes the table's group keys nor any
metric value a `defaultdict(int)` read observes, for every format — but it
is NOT a bit-identical pure read: the table and CSV formatters insert
explicit zero entries for metrics absent from a group's counter (see the
counterexample); JSON and YAML leave the table fully untouched. -/
theorem fmttotals_preserves_metrics (ctx : Ctx) (fmt : Fmt) (t : Totals) (g k : String) :
    keysT (fmttotals ctx fmt t).2 = keysT t
    ∧ getT (fmttotals ctx fmt t).2 g k = getT t g k := by
  cases fmt with
  | table =>
    have e2 : (fmttotals ctx Fmt.table t).2
        = t.map (fun e => (e.1, (readColsAux COLS (dgetE e.2 "lines").2).2)) := by
      show (fmtTable t).2 = _
      simp only [fmtTable]
      rw [List.map_map, List.map_map]
      rfl
    rw [e2]
    refine ⟨keysT_map_snd (fun es => (readColsAux COLS (dgetE es "lines").2).2) t, ?_⟩
    exact @getT_map_snd (fun es => (readColsAux COLS (dgetE es "lines").2).2)
      (fun es k2 => by rw [getE_readColsAux, getE_dgetE]) t g k
  | csv =>
    have e2 : (fmttotals ctx Fmt.csv t).2
        = t.map (fun e => (e.1, (readColsAux COLS e.2).2)) := by
      show (fmtCsv ctx t).2 = _
      simp only [fmtCsv]
      rw [List.map_map]
      rfl
    rw [e2]
    exact ⟨keysT_map_snd (fun es => (readColsAux COLS es).2) t,
      @getT_map_snd (fun es => (readColsAux COLS es).2)
        (fun es k2 => getE_readColsAux COLS es k2) t g k⟩
  | json => exact ⟨rfl, rfl⟩
  | yaml =>
    have e2 : (fmttotals ctx Fmt.yaml t).2 = t := rfl
    rw [e2]
    exact ⟨rfl, rfl⟩

/-- C3 counterexample: formatting is not a pure read. For the table built
from one empty `a.py` blob (whose groups hold only `files` and `bytes`
entries), rendering the table format inserts explicit `lines` and `blanks`
zero entries through the `defaultdict` subscript reads, so the counter
table differs before and after. -/
theorem fmttotals_table_mutates :
    (fmttotals ctxExtension Fmt.table (tree ctxExtension [⟨"a.py", 0, ""⟩]).1).2
      ≠ (tree ctxExtension [⟨"a.py", 0, ""⟩]).1 := by
  decide

/-! ### Claim C2 -/

/-- C2 (amended): the CSV data rows are written sorted ascending by the
sort key `x[1]`, which for the flattened row `[group, files, lines,
blanks, bytes]` is the FILES count (the first metric value), not the line
count; each emitted row is a group of the table with its metric values in
`COLS` order, the first value being that group's `files` metric. -/
theorem csv_rows_sorted_by_files (ctx : Ctx) (t : Totals) :
    ascendingBy (fun r => r.2.getD 0 0) (fmtCsv ctx t).1.rows = true
    ∧ ∀ r ∈ (fmtCsv ctx t).1.rows, ∃ e ∈ t, r.1 = e.1
        ∧ r.2 = COLS.map (fun k => getE e.2 k)
        ∧ r.2.getD 0 0 = getE e.2 "files" := by
  constructor
  · apply ascendingBy_stableSort
    intro a b
    simp [csvRowLe]
  · intro r hr
    have hr2 : r ∈ (t.map (fun e => (e.1, readColsAux COLS e.2))).map
        (fun p => (p.1, p.2.1)) := (mem_stableSort _ _ _).mp hr
    obtain ⟨p, hp, rfl⟩ := List.mem_map.mp hr2
    obtain ⟨e, he, rfl⟩ := List.mem_map.mp hp
    refine ⟨e, he, rfl, ?_, ?_⟩
    · exact readColsAux_fst COLS e.2
    · rw [show ((e.1, readColsAux COLS e.2).2.1 : List Int)
          = (readColsAux COLS e.2).1 from rfl, readColsAux_fst]
      rfl

/-- C2 counterexample: a run over three blobs where the files order
disagrees with the lines order; the written CSV data rows (x, then y, then
total, by ascending files) have line counts 3, 1, 4 — not ascending, so
the rows are NOT sorted by the line count. -/
theorem csv_rows_not_sorted_by_lines :
    ascendingBy (fun r => r.2.getD 1 0)
      (fmtCsv ctxExtension (tree ctxExtension
        [⟨"a.x", 1, "p\nq\nr\n"⟩, ⟨"b.y", 1, "p\n"⟩, ⟨"c.y", 1, ""⟩]).1).1.rows
      = false := by
  decide

/-! ### Claim C9 -/

/-- C9 (amended): the CSV report's first row is the header holding the
ACTIVE GROUPBY MODE's name (`extension`, `mime-type`, or `language`)
followed by the metric names files, lines, blanks, bytes; the first column
name is never the literal `group`. -/
theorem csv_header_is_groupby_name (ctx : Ctx) (t : Totals) :
    (fmtCsv ctx t).1.header = groupbyName ctx.groupby :: COLS
    ∧ (fmtCsv ctx t).1.header.headD "" ≠ "group" := by
  refine ⟨rfl, ?_⟩
  rw [show (fmtCsv ctx t).1.header = groupbyName ctx.groupby :: COLS from rfl]
  cases ctx.groupby <;> decide

/-- C9 counterexample: under the default `language` grouping the header's
first cell is `language`, not the literal `group`. -/
theorem csv_header_not_group_literal :
    (fmtCsv ctxLanguage initTotals).1.header
      = ["language", "files", "lines", "blanks", "bytes"]
    ∧ (fmtCsv ctxLanguage initTotals).1.header ≠ "group" :: COLS := by
  decide

/-! ### Claim C6 -/

theorem takeWhile_append_all {α : Type} (p : α → Bool) (l1 : List α) (c : α)
    (l2 : List α) (h1 : ∀ x ∈ l1, p x = true) (hc : p c = false) :
    (l1 ++ c :: l2).takeWhile p = l1 := by
  induction l1 with
  | nil => simp [List.takeWhile_cons, hc]
  | cons a l ih =>
    have ha : p a = true := h1 a (List.mem_cons_self _ _)
    simp [List.takeWhile_cons, ha,
      ih (fun x hx => h1 x (List.mem_cons_of_mem _ hx))]

theorem dropWhile_append_all {α : Type} (p : α → Bool) (l1 : List α) (c : α)
    (l2 : List α) (h1 : ∀ x ∈ l1, p x = true) (hc : p c = false) :
    (l1 ++ c :: l2).dropWhile p = c :: l2 := by
  induction l1 with
  | nil => simp [List.dropWhile_cons, hc]
  | cons a l ih =>
    have ha : p a = true := h1 a (List.mem_cons_self _ _)
    simp [List.dropWhile_cons, ha,
      ih (fun x hx => h1 x (List.mem_cons_of_mem _ hx))]

theorem dropWhile_all {α : Type} (p : α → Bool) (l : List α)
    (h : ∀ x ∈ l, p x = true) : l.dropWhile p = [] := by
  induction l with
  | nil => rfl
  | cons a l ih =>
    have ha : p a = true := h a (List.mem_cons_self _ _)
    simp [List.dropWhile_cons, ha,
      ih (fun x hx => h x (List.mem_cons_of_mem _ hx))]

theorem pySuffixL_no_dot {name : List Char} (h : '.' ∉ name) :
    pySuffixL name = [] := by
  have hall : ∀ x ∈ name.reverse, (x != '.') = true := fun x hx =>
    bne_iff_ne.mpr (fun e => h (e ▸ List.mem_reverse.mp hx))
  simp only [pySuffixL]
  rw [dropWhile_all _ _ hall]

theorem pySuffixL_decomp (before after : List Char) (hafter : '.' ∉ after) :
    pySuffixL (before ++ '.' :: after)
      = if before = [] ∨ after = [] then [] else '.' :: after := by
  have hall : ∀ x ∈ after.reverse, (x != '.') = true := fun x hx =>
    bne_iff_ne.mpr (fun e => hafter (e ▸ List.mem_reverse.mp hx))
  have hdot : (('.' : Char) != '.') = false := by decide
  have hrev : (before ++ '.' :: after).reverse
      = after.reverse ++ '.' :: before.reverse := by
    simp [List.reverse_append]
  simp only [pySuffixL]
  rw [hrev, takeWhile_append_all _ _ _ _ hall hdot,
    dropWhile_append_all _ _ _ _ hall hdot]
  by_cases hb : before = [] ∨ after = []
  · rcases hb with hb | hb
    · subst hb
      simp
    · subst hb
      simp
  · push_neg at hb
    obtain ⟨hb1, hb2⟩ := hb
    have e1 : after.reverse.isEmpty = false := by
      cases ha : after.reverse with
      | nil => exact absurd (List.reverse_eq_nil_iff.mp ha) hb2
      | cons x xs => rfl
    have e2 : before.reverse.isEmpty = false := by
      cases ha : before.reverse with
      | nil => exact absurd (List.reverse_eq_nil_iff.mp ha) hb1
      | cons x xs => rfl
    simp [e1, e2, hb1, hb2]

/-- C6 (amended): in extension mode the classifier returns the substring
after the LAST dot of the filename only when that dot is neither the
filename's first nor its last character (the pathlib suffix rule);
filenames with no dot, leading-dot-only names such as `.gitignore`, and
names ending in a dot all classify as `other`. -/
theorem extension_group_internal_dot (langs : List (String × LangInfo))
    (guess : String → Option String) (cache : Cache) (path : String)
    (before after : List Char)
    (h : ((pyName path).data = before ++ '.' :: after ∧ '.' ∉ after)
       ∨ ('.' ∉ (pyName path).data ∧ before = [] ∧ after = [])) :
    (group ⟨.extension, langs, guess⟩ cache path).1
      = if before = [] ∨ after = [] then "other" else String.mk after := by
  rcases h with ⟨hdec, hafter⟩ | ⟨hnodot, hb, ha⟩
  · simp only [group]
    rw [hdec, pySuffixL_decomp before after hafter]
    by_cases hb : before = [] ∨ after = []
    · rw [if_pos hb, if_pos hb]
    · rw [if_neg hb, if_neg hb]
  · subst hb
    subst ha
    rw [if_pos (Or.inl rfl)]
    simp only [group]
    rw [pySuffixL_no_dot hnodot]

/-- Witness for C6: `dir/a.tar.gz` has its last dot internal to the
filename, so the classifier returns `gz`. -/
theorem extension_group_internal_dot_witness :
    ((pyName "dir/a.tar.gz").data = ['a', '.', 't', 'a', 'r'] ++ '.' :: ['g', 'z']
      ∧ ('.' ∉ (['g', 'z'] : List Char)))
    ∧ (group ⟨.extension, [], fun _ => none⟩ [] "dir/a.tar.gz").1
        = if (['a', '.', 't', 'a', 'r'] : List Char) = []
              ∨ (['g', 'z'] : List Char) = []
          then "other" else String.mk ['g', 'z'] :=
  ⟨⟨by decide, by decide⟩,
    extension_group_internal_dot [] (fun _ => none) [] "dir/a.tar.gz"
      ['a', '.', 't', 'a', 'r'] ['g', 'z'] (Or.inl ⟨by decide, by decide⟩)⟩

/-- C6 counterexample: for the dotfile `.gitignore` the substring after
the last `.` of the filename is `gitignore`, but the classifier returns
`other` — a leading dot does not count as an extension separator. -/
theorem extension_group_dotfile_mismatch :
    (group ctxExtension [] ".gitignore").1 = "other"
    ∧ specExtensionKey (pyName ".gitignore") = "gitignore"
    ∧ (group ctxExtension [] ".gitignore").1
        ≠ specExtensionKey (pyName ".gitignore") := by
  decide

/-! ### Claim C8 -/

/-- C8 (spec-modelled, history mode is not in the source file): per
(commit, file, change) triple, when `net = insertions - deletions` is
nonzero it is added both to the file's extension group and to the `total`
group; zero-delta changes leave the table untouched; and the two-commit
scenario (50/0 then 5/10 on `main.go`) yields a `go` net total of 45. -/
theorem history_net_accumulation (t : Totals) (c c0 : Change)
    (h0 : c0.insertions - c0.deletions = 0)
    (h1 : c.insertions - c.deletions ≠ 0)
    (h2 : extKeyOf c.file ≠ "total")
    (h3 : (lookupE "total" t).isSome = true) :
    getT (historyStep t c) (extKeyOf c.file) "net-lines"
      = getT t (extKeyOf c.file) "net-lines" + (c.insertions - c.deletions)
    ∧ getT (historyStep t c) "total" "net-lines"
      = getT t "total" "net-lines" + (c.insertions - c.deletions)
    ∧ historyStep t c0 = t
    ∧ getT (runHistory [[⟨"main.go", 50, 0⟩], [⟨"main.go", 5, 10⟩]])
        "go" "net-lines" = 45 := by
  refine ⟨?_, ?_, ?_, by decide⟩
  · unfold historyStep
    rw [if_neg h1]
    rw [getT_incrT_other_row _ h2]
    rw [getT_incrT_self_row _ (lookupE_setdefaultT_self t _)]
    rw [getT_setdefaultT]
    simp
  · unfold historyStep
    rw [if_neg h1]
    rw [getT_incrT_self_row _ (by
      simp only [lookupE_incrT_isSome]
      exact lookupE_setdefaultT_mono t _ "total" h3)]
    rw [getT_incrT_other_row _ (fun x => h2 x.symm)]
    rw [getT_setdefaultT]
    simp
  · unfold historyStep
    rw [if_pos h0]

/-- Witness for C8: a nonzero change on `a.py` (net +2), a zero-delta
change on `b.py`, and the two-commit `main.go` scenario. -/
theorem history_net_accumulation_witness :
    ((Change.mk "b.py" 2 2).insertions - (Change.mk "b.py" 2 2).deletions = 0
      ∧ (Change.mk "a.py" 3 1).insertions - (Change.mk "a.py" 3 1).deletions ≠ 0
      ∧ extKeyOf "a.py" ≠ "total"
      ∧ (lookupE "total" initTotals).isSome = true)
    ∧ (getT (historyStep initTotals (Change.mk "a.py" 3 1)) (extKeyOf "a.py") "net-lines"
        = getT initTotals (extKeyOf "a.py") "net-lines" + (3 - 1)
      ∧ getT (historyStep initTotals (Change.mk "a.py" 3 1)) "total" "net-lines"
        = getT initTotals "total" "net-lines" + (3 - 1)
      ∧ historyStep initTotals (Change.mk "b.py" 2 2) = initTotals
      ∧ getT (runHistory [[⟨"main.go", 50, 0⟩], [⟨"main.go", 5, 10⟩]])
          "go" "net-lines" = 45) :=
  ⟨⟨by decide, by decide, by decide, by decide⟩,
    history_net_accumulation initTotals (Change.mk "a.py" 3 1) (Change.mk "b.py" 2 2)
      (by decide) (by decide) (by decide) (by decide)⟩
